import Mathlib

set_option maxHeartbeats 1000000

/-!
Verification development for `cadquery/occ_impl/assembly.py`.

The file shallowly embeds the two components of that module:

* the `Color` wrapper class around the kernel color object
  `Quantity_ColorRGBA`, with its argument-shape dispatching constructor
  `Color.__init__`;
* the assembly-to-OCAF-document converter `toCAF`, which walks an
  assembly tree and populates a document through the kernel shape/color
  tools.

The external geometry kernel (OCP/OCCT) is not part of the repository;
the few kernel entry points the module calls (`Quantity_ColorRGBA`
storage, `ColorFromName_s`, the shape-tool label/name/color/component
operations) are modelled from the specification as a record of the calls
made, so that the document produced by `toCAF` is a concrete, inspectable
value.  Python floats are modelled as rationals; all values appearing in
the properties are stored exactly, so no rounding is involved.
-/

namespace CQ

/-- Modelled from the spec: the kernel color object `Quantity_ColorRGBA`
holds four floating channels r, g, b, a, each in `[0,1]`.  Only its
storage of the four channels is needed here; channels are rationals
standing for the floating point values, which are stored exactly. -/
structure Quantity_ColorRGBA where
  r : ℚ
  g : ℚ
  b : ℚ
  a : ℚ
deriving DecidableEq

/-- Wrapper for the OCCT color object `Quantity_ColorRGBA` (the Python
class `Color`). -/
structure Color where
  wrapped : Quantity_ColorRGBA
deriving DecidableEq

/-- A positional argument of `Color.__init__`: the constructor is called
either with a name string or with float channel values. -/
inductive PyVal where
  | pstr (s : String)
  | pfloat (q : ℚ)
deriving DecidableEq

/-- Failures of the `Color` constructor.  `unknownColor` is the
`ValueError("Unknown color name: ...")` raised by `Color.__init__` when
the kernel palette does not know the name (the spec calls it
`UnknownColorError`); `invalidArguments` is the
`ValueError("Unsupported arguments: ...")` raised by the final `else`
branch (the spec calls it `InvalidArgumentsError`); `kernelTypeError`
stands for the `TypeError` raised inside the kernel binding when a
branch for a supported argument count receives arguments of the wrong
type, before any `ValueError` of `Color.__init__` itself can be
reached. -/
inductive ColorError where
  | unknownColor (name : String)
  | invalidArguments
  | kernelTypeError
deriving DecidableEq

/-- `Color.__init__`.  The Python code dispatches on `len(args)`:

* one argument: `Quantity_ColorRGBA.ColorFromName_s(args[0], wrapped)`,
  raising `ValueError` when the lookup reports the name as unknown
  (the palette of the kernel is modelled from the spec as a function
  from names to optional channel values, passed as a parameter);
* three arguments: `Quantity_ColorRGBA(r, g, b, 1)` followed by
  `SetAlpha(kwargs.get("a"))` guarded by `if kwargs.get("a"):`, i.e. the
  alpha keyword is applied only when present and truthy (nonzero);
* four arguments: `Quantity_ColorRGBA(r, g, b, a)`;
* any other count: `ValueError("Unsupported arguments: ...")`.

Only the `"a"` keyword argument is ever consulted, so the keyword
arguments are modelled by `kwarg_a`. -/
def colorInit (palette : String → Option Quantity_ColorRGBA)
    (args : List PyVal) (kwarg_a : Option ℚ) : Except ColorError Color :=
  if args.length = 1 then
    match args with
    | [PyVal.pstr s] =>
      match palette s with
      | some q => Except.ok ⟨q⟩
      | none => Except.error (ColorError.unknownColor s)
    | _ => Except.error ColorError.kernelTypeError
  else if args.length = 3 then
    match args with
    | [PyVal.pfloat r, PyVal.pfloat g, PyVal.pfloat b] =>
      let w : Quantity_ColorRGBA := ⟨r, g, b, 1⟩
      match kwarg_a with
      | some q => if q ≠ 0 then Except.ok ⟨{ w with a := q }⟩ else Except.ok ⟨w⟩
      | none => Except.ok ⟨w⟩
    | _ => Except.error ColorError.kernelTypeError
  else if args.length = 4 then
    match args with
    | [PyVal.pfloat r, PyVal.pfloat g, PyVal.pfloat b, PyVal.pfloat a] =>
      Except.ok ⟨⟨r, g, b, a⟩⟩
    | _ => Except.error ColorError.kernelTypeError
  else
    Except.error ColorError.invalidArguments

/-- A palette that recognizes no name at all; used to instantiate
palette-generic statements at a concrete input. -/
def emptyPalette : String → Option Quantity_ColorRGBA := fun _ => none

/-- A palette recognizing exactly the name "green"; used to instantiate
palette-generic statements at a concrete input. -/
def greenPalette : String → Option Quantity_ColorRGBA :=
  fun s => if s = "green" then some ⟨0, 1, 0, 1⟩ else none

/-- C4: constructing a `Color` from a single name string succeeds for
every name the kernel palette recognizes, yielding exactly the
kernel-defined channel values, and fails with the unknown-color error
for every unrecognized name. -/
theorem colorInit_name_lookup (palette : String → Option Quantity_ColorRGBA) (s : String) :
    (∀ q, palette s = some q →
      colorInit palette [PyVal.pstr s] none = Except.ok ⟨q⟩) ∧
    (palette s = none →
      colorInit palette [PyVal.pstr s] none = Except.error (ColorError.unknownColor s)) := by
  constructor
  · intro q hq
    simp [colorInit, hq]
  · intro hq
    simp [colorInit, hq]

/-- Witness for C4: the two branches of `colorInit_name_lookup`
evaluated on the concrete palette `greenPalette`. -/
theorem colorInit_name_lookup_witness :
    colorInit greenPalette [PyVal.pstr "green"] none = Except.ok ⟨⟨0, 1, 0, 1⟩⟩ ∧
    colorInit greenPalette [PyVal.pstr "cerulean"] none =
      Except.error (ColorError.unknownColor "cerulean") :=
  ⟨(colorInit_name_lookup greenPalette "green").1 ⟨0, 1, 0, 1⟩ (by decide),
   (colorInit_name_lookup greenPalette "cerulean").2 (by decide)⟩

/-- C3 counterexample: constructing a `Color` from exactly three floats
without an alpha argument yields alpha `1`, not `0`: the implementation
builds `Quantity_ColorRGBA(r, g, b, 1)` and only overwrites the alpha
when the `a` keyword is present and truthy. -/
theorem colorInit_three_floats_alpha_not_zero :
    (colorInit emptyPalette [PyVal.pfloat 1, PyVal.pfloat 0, PyVal.pfloat 0] none).map
        (fun c => c.wrapped.a) = Except.ok 1 ∧
    (1 : ℚ) ≠ 0 :=
  ⟨rfl, one_ne_zero⟩

/-- C3 (amended): constructing a `Color` from exactly three floats
without an alpha argument produces an RGBA color whose alpha channel is
`1` (fully opaque). -/
theorem colorInit_three_floats_default_alpha_one
    (palette : String → Option Quantity_ColorRGBA) (r g b : ℚ) :
    colorInit palette [PyVal.pfloat r, PyVal.pfloat g, PyVal.pfloat b] none =
      Except.ok ⟨⟨r, g, b, 1⟩⟩ := rfl

/-- C5 counterexample: a single float is an argument shape other than
one name string, three floats or four floats, yet it does not fail with
the unsupported-arguments `ValueError`: the one-argument branch is
entered and the failure comes from the kernel binding instead. -/
theorem colorInit_single_float_not_invalidArguments :
    colorInit emptyPalette [PyVal.pfloat 0] none = Except.error ColorError.kernelTypeError ∧
    ColorError.kernelTypeError ≠ ColorError.invalidArguments :=
  ⟨rfl, by decide⟩

/-- C5 (amended): constructing a `Color` with any positional argument
count other than one, three or four (for example zero or two positional
arguments) fails with the unsupported-arguments error. -/
theorem colorInit_bad_arity_invalidArguments
    (palette : String → Option Quantity_ColorRGBA) (args : List PyVal) (kwarg_a : Option ℚ)
    (h1 : args.length ≠ 1) (h3 : args.length ≠ 3) (h4 : args.length ≠ 4) :
    colorInit palette args kwarg_a = Except.error ColorError.invalidArguments := by
  simp [colorInit, h1, h3, h4]

/-- Witness for C5 (amended): zero positional arguments fail with the
unsupported-arguments error. -/
theorem colorInit_bad_arity_invalidArguments_witness :
    colorInit emptyPalette [] none = Except.error ColorError.invalidArguments :=
  colorInit_bad_arity_invalidArguments emptyPalette [] none
    (by decide) (by decide) (by decide)

/-- C6: for channel values in `[0,1]`, constructing a `Color` from four
explicit channel values stores exactly those values, so reading the
channels back yields the inputs. -/
theorem colorInit_four_floats_roundtrip
    (palette : String → Option Quantity_ColorRGBA) (kwarg_a : Option ℚ) (r g b a : ℚ)
    (h0r : 0 ≤ r) (h1r : r ≤ 1) (h0g : 0 ≤ g) (h1g : g ≤ 1)
    (h0b : 0 ≤ b) (h1b : b ≤ 1) (h0a : 0 ≤ a) (h1a : a ≤ 1) :
    colorInit palette [PyVal.pfloat r, PyVal.pfloat g, PyVal.pfloat b, PyVal.pfloat a] kwarg_a =
      Except.ok ⟨⟨r, g, b, a⟩⟩ := rfl

/-- Witness for C6: the round-trip theorem applied at the concrete
channel values `(1/2, 0, 1, 1/2)`. -/
theorem colorInit_four_floats_roundtrip_witness :
    (0 : ℚ) ≤ 1/2 ∧ (1/2 : ℚ) ≤ 1 ∧
    colorInit emptyPalette
        [PyVal.pfloat (1/2), PyVal.pfloat 0, PyVal.pfloat 1, PyVal.pfloat (1/2)] none =
      Except.ok ⟨⟨1/2, 0, 1, 1/2⟩⟩ :=
  ⟨by norm_num, by norm_num,
   colorInit_four_floats_roundtrip emptyPalette none (1/2) 0 1 (1/2)
     (by norm_num) (by norm_num) (by norm_num) (by norm_num)
     (by norm_num) (by norm_num) (by norm_num) (by norm_num)⟩

/-- C10: in the three-float constructor branch, an alpha keyword passed
explicitly as `0` is ignored (the guard `if kwargs.get("a"):` is falsy),
so the resulting alpha is `1`; a nonzero alpha keyword is applied. -/
theorem colorInit_alpha_kwarg_zero_ignored
    (palette : String → Option Quantity_ColorRGBA) (r g b : ℚ) :
    colorInit palette [PyVal.pfloat r, PyVal.pfloat g, PyVal.pfloat b] (some 0) =
      Except.ok ⟨⟨r, g, b, 1⟩⟩ ∧
    ∀ q : ℚ, q ≠ 0 →
      colorInit palette [PyVal.pfloat r, PyVal.pfloat g, PyVal.pfloat b] (some q) =
        Except.ok ⟨⟨r, g, b, q⟩⟩ := by
  constructor
  · simp [colorInit]
  · intro q hq
    simp [colorInit, hq]

/-- Witness for C10: alpha keyword `0` yields alpha `1`, alpha keyword
`1/2` yields alpha `1/2`, at concrete channels `(1, 0, 0)`. -/
theorem colorInit_alpha_kwarg_zero_ignored_witness :
    colorInit emptyPalette [PyVal.pfloat 1, PyVal.pfloat 0, PyVal.pfloat 0] (some 0) =
      Except.ok ⟨⟨1, 0, 0, 1⟩⟩ ∧
    colorInit emptyPalette [PyVal.pfloat 1, PyVal.pfloat 0, PyVal.pfloat 0] (some (1/2)) =
      Except.ok ⟨⟨1, 0, 0, 1/2⟩⟩ :=
  ⟨(colorInit_alpha_kwarg_zero_ignored emptyPalette 1 0 0).1,
   (colorInit_alpha_kwarg_zero_ignored emptyPalette 1 0 0).2 (1/2) (by norm_num)⟩

/-- Modelled from the spec: a leaf geometric shape owned by an assembly
node; its geometric content is opaque to this module, so it is
identified by a tag. -/
structure Shape where
  id : Nat
deriving DecidableEq

/-- Modelled from the spec: a compound shape aggregating the leaf shapes
of one node into a single entity (`Compound.makeCompound(v.shapes)`). -/
structure Compound where
  shapes : List Shape
deriving DecidableEq

/-- `Compound.makeCompound`: modelled from the spec, it aggregates a
sequence of shapes into one compound. -/
def Compound.makeCompound (s : List Shape) : Compound := ⟨s⟩

/-- Modelled from the spec: a kernel placement (`TopLoc_Location`), a
rigid transform whose content is opaque to this module; identified by a
tag, with `TopLoc_Location()` (the identity transform) as tag `0`. -/
structure TopLoc_Location where
  raw : Nat
deriving DecidableEq

/-- The placement built by the bare constructor call
`TopLoc_Location()`: the identity transform. -/
def TopLoc_Location.identity : TopLoc_Location := ⟨0⟩

/-- The user-level placement object (`Location` of `geom.py`); `toCAF`
only ever reads its `wrapped` kernel placement. -/
structure Location where
  wrapped : TopLoc_Location
deriving DecidableEq

/-- An assembly node of the `AssemblyProtocol`: a name, a local
placement, an optional color, the node's own shapes, and its child
nodes.  The `parent` back reference of the protocol is recovered below
by carrying the chain of ancestors during traversal. -/
inductive Assembly where
  | node (name : String) (loc : Location) (color : Option Color)
      (shapes : List Shape) (children : List Assembly)

def Assembly.name : Assembly → String
  | .node n _ _ _ _ => n

def Assembly.loc : Assembly → Location
  | .node _ l _ _ _ => l

def Assembly.color : Assembly → Option Color
  | .node _ _ c _ _ => c

def Assembly.shapes : Assembly → List Shape
  | .node _ _ _ s _ => s

def Assembly.children : Assembly → List Assembly
  | .node _ _ _ _ ch => ch

/-- One element yielded by the traversal as consumed by the `toCAF`
loop `for k, v in assy.traverse()`: the key `k`, the node `v`, and the
colors of the node's ancestors (nearest first), standing for the
`parent` back-reference chain that the colored-STEP branch walks. -/
structure TravEntry where
  k : String
  v : Assembly
  anc : List (Option Color)

mutual
/-- Modelled from the spec: `traverse()` produces the finite sequence of
`(name, node)` pairs of the whole subtree, each node once, children
before the node itself, so that every child is already recorded in the
name map when its parent is processed; the node's own pair comes last.
The ancestor color chain is threaded downward to stand for the `parent`
back references. -/
def Assembly.traverseFrom (anc : List (Option Color)) : Assembly → List TravEntry
  | .node n l c s ch =>
    Assembly.traverseListFrom (c :: anc) ch ++ [⟨n, .node n l c s ch, anc⟩]

/-- Traversal of a list of sibling subtrees, in order. -/
def Assembly.traverseListFrom (anc : List (Option Color)) : List Assembly → List TravEntry
  | [] => []
  | a :: rest => Assembly.traverseFrom anc a ++ Assembly.traverseListFrom anc rest
end

/-- `traverse()` of a whole assembly: the root has no ancestors. -/
def Assembly.traverse (a : Assembly) : List TravEntry := Assembly.traverseFrom [] a

/-- The ancestor-walk of the colored-STEP branch:

```
color = v.color
tmp = v
while not color and tmp.parent:
    tmp = tmp.parent
    color = tmp.color
```

`colorWalk c anc` runs the loop with current color `c` and the colors of
the remaining ancestors `anc` (nearest first). -/
def colorWalk : Option Color → List (Option Color) → Option Color
  | some c, _ => some c
  | none, [] => none
  | none, p :: rest => colorWalk p rest

/-- The color of the nearest colored ancestor: the first ancestor color
present in the (nearest-first) ancestor chain.  This is the
specification-side reading of "the nearest such ancestor's color". -/
def nearestAncestorColor (anc : List (Option Color)) : Option Color :=
  (anc.filterMap id).head?

/-- The kernel document state, modelled from the spec as the record of
the calls `toCAF` makes against the shape tool and color tool: labels
are numbered in creation order by `NewShape`, and every `SetShape`,
name-setting, `SetColor` and `AddComponent` call is logged (most recent
first). -/
structure DocState where
  format : String
  autoNaming : Bool
  nextId : Nat
  names : List (Nat × String)
  shapesSet : List (Nat × Compound)
  colors : List (Nat × Quantity_ColorRGBA)
  components : List (Nat × Nat × TopLoc_Location)
  updated : Bool

/-- `tool.NewShape()`: allocate a fresh label. -/
def DocState.newShape (st : DocState) : DocState × Nat :=
  ({ st with nextId := st.nextId + 1 }, st.nextId)

/-- `tool.SetShape(lab, compound)`. -/
def DocState.setShape (st : DocState) (l : Nat) (c : Compound) : DocState :=
  { st with shapesSet := (l, c) :: st.shapesSet }

/-- `tool.AddComponent(parent, child, loc)`. -/
def DocState.addComponent (st : DocState) (parent child : Nat) (loc : TopLoc_Location) : DocState :=
  { st with components := (parent, child, loc) :: st.components }

/-- `setName(l, name, tool)`, i.e.
`TDataStd_Name.Set_s(l, TCollection_ExtendedString(name))`. -/
def setName (st : DocState) (l : Nat) (name : String) : DocState :=
  { st with names := (l, name) :: st.names }

/-- `setColor(l, color, tool)`, i.e.
`ctool.SetColor(l, color.wrapped, XCAFDoc_ColorType.XCAFDoc_ColorSurf)`;
all calls use the surface color type, so only the label and channel
values are recorded. -/
def setColor (st : DocState) (l : Nat) (color : Color) : DocState :=
  { st with colors := (l, color.wrapped) :: st.colors }

/-- The error raised by `toCAF`: a Python `KeyError` from the dict
access `subassys[name]` (the spec's `MissingSubassemblyError`). -/
inductive CAFError where
  | keyError (key : String)
deriving DecidableEq

/-- The `subassys` dict: qualified name to (assembly label, location),
most recent binding first. -/
abbrev SubMap := List (String × (Nat × Location))

/-- Python dict lookup `subassys[name]`: the most recent binding for
the name, if any. -/
def lookupSub : SubMap → String → Option (Nat × Location)
  | [], _ => none
  | (k, v) :: rest, key => if key = k then some v else lookupSub rest key

/-- The inner loop

```
for ch in v.children:
    tool.AddComponent(subassy, subassys[ch.name][0], subassys[ch.name][1].wrapped)
```

where a dict access with an absent key raises `KeyError`. -/
def addChildren (st : DocState) (subs : SubMap) (subassy : Nat) :
    List Assembly → Except CAFError (DocState × SubMap)
  | [] => Except.ok (st, subs)
  | ch :: rest =>
    match lookupSub subs ch.name with
    | none => Except.error (CAFError.keyError ch.name)
    | some (chLab, chLoc) =>
      addChildren (st.addComponent subassy chLab chLoc.wrapped) subs subassy rest

/-- One iteration of the `for k, v in assy.traverse():` loop of
`toCAF`. -/
def runEntry (coloredSTEP : Bool) (st : DocState) (subs : SubMap) (e : TravEntry) :
    Except CAFError (DocState × SubMap) :=
  -- leaf part
  let (st, lab) := st.newShape
  let st := st.setShape lab (Compound.makeCompound e.v.shapes)
  let st := setName st lab (e.k ++ "_part")
  -- assy part
  let (st, subassy) := st.newShape
  let st := st.addComponent subassy lab TopLoc_Location.identity
  let st := setName st subassy e.k
  -- handle colors - this logic is needed for proper STEP export
  let st :=
    if coloredSTEP then
      match colorWalk e.v.color e.anc with
      | some color => setColor st lab color
      | none => st
    else
      match e.v.color with
      | some color => setColor st subassy color
      | none => st
  let subs := (e.k, (subassy, e.v.loc)) :: subs
  addChildren st subs subassy e.v.children

/-- The whole `for k, v in assy.traverse():` loop. -/
def runEntries (coloredSTEP : Bool) (st : DocState) (subs : SubMap) :
    List TravEntry → Except CAFError (DocState × SubMap)
  | [] => Except.ok (st, subs)
  | e :: rest =>
    match runEntry coloredSTEP st subs e with
    | Except.error err => Except.error err
    | Except.ok (st1, subs1) => runEntries coloredSTEP st1 subs1 rest

/-- `toCAF(assy, coloredSTEP)`: prepare a fresh document with automatic
naming disabled, create the root label named "CQ assembly", run the
traversal loop, then add the recorded root subassembly as a component of
the root label at the root node's own placement and update the
assemblies.  Returns the root label and the document. -/
def toCAF (assy : Assembly) (coloredSTEP : Bool) : Except CAFError (Nat × DocState) :=
  -- prepare a doc
  let doc : DocState :=
    { format := "XmlOcaf", autoNaming := false, nextId := 0, names := [],
      shapesSet := [], colors := [], components := [], updated := false }
  -- add root
  let (doc, top) := doc.newShape
  let doc := setName doc top "CQ assembly"
  -- add leafs and subassemblies
  match runEntries coloredSTEP doc [] assy.traverse with
  | Except.error err => Except.error err
  | Except.ok (doc, subassys) =>
    match lookupSub subassys assy.name with
    | none => Except.error (CAFError.keyError assy.name)
    | some (rootLab, _) =>
      let doc := doc.addComponent top rootLab assy.loc.wrapped
      let doc := { doc with updated := true }
      Except.ok (top, doc)

/-- The label holding the compound geometry of the i-th traversal entry
(label `0` is the root label, each entry then allocates its part label
and its assembly label in order). -/
def partLabel (i : Nat) : Nat := 1 + 2 * i

/-- The assembly (instance) label of the i-th traversal entry. -/
def instLabel (i : Nat) : Nat := 2 + 2 * i

/-- The color record one loop iteration appends: with `coloredSTEP` the
resolved (possibly inherited) color goes on the part label `base`, and
without it the node's own color goes on the assembly label `base + 1`. -/
def colorRec (b : Bool) (base : Nat) (e : TravEntry) : List (Nat × Quantity_ColorRGBA) :=
  if b then
    match colorWalk e.v.color e.anc with
    | some c => [(base, c.wrapped)]
    | none => []
  else
    match e.v.color with
    | some c => [(base + 1, c.wrapped)]
    | none => []

/-- Closed form of the color log the loop accumulates (most recent
first), with labels allocated from `base`. -/
def colorsLog (b : Bool) (base : Nat) : List TravEntry → List (Nat × Quantity_ColorRGBA)
  | [] => []
  | e :: rest => colorsLog b (base + 2) rest ++ colorRec b base e

/-- Closed form of the name log the loop accumulates. -/
def namesLog (base : Nat) : List TravEntry → List (Nat × String)
  | [] => []
  | e :: rest => namesLog (base + 2) rest ++ [(base + 1, e.k), (base, e.k ++ "_part")]

/-- Closed form of the shape-attachment log the loop accumulates. -/
def shapesLog (base : Nat) : List TravEntry → List (Nat × Compound)
  | [] => []
  | e :: rest => shapesLog (base + 2) rest ++ [(base, Compound.makeCompound e.v.shapes)]

/-- Closed form of the `subassys` map the loop accumulates. -/
def subsLog (base : Nat) : List TravEntry → SubMap
  | [] => []
  | e :: rest => subsLog (base + 2) rest ++ [(e.k, (base + 1, e.v.loc))]

/-- The component records the child loop of one iteration appends. -/
def childComps (sa : Nat) (subs : SubMap) : List Assembly → List (Nat × Nat × TopLoc_Location)
  | [] => []
  | ch :: rest =>
    match lookupSub subs ch.name with
    | none => childComps sa subs rest
    | some (chLab, chLoc) => childComps sa subs rest ++ [(sa, chLab, chLoc.wrapped)]

/-- Closed form of the component log the loop accumulates. -/
def compsLog (base : Nat) (subs : SubMap) : List TravEntry → List (Nat × Nat × TopLoc_Location)
  | [] => []
  | e :: rest =>
    let subs1 : SubMap := (e.k, (base + 1, e.v.loc)) :: subs
    compsLog (base + 2) subs1 rest ++ childComps (base + 1) subs1 e.v.children
      ++ [(base + 1, base, TopLoc_Location.identity)]

theorem addChildren_ok_spec (children : List Assembly) :
    ∀ (st : DocState) (subs : SubMap) (sa : Nat) (st2 : DocState) (subs2 : SubMap),
      addChildren st subs sa children = Except.ok (st2, subs2) →
      subs2 = subs ∧
      st2 = { st with components := childComps sa subs children ++ st.components } := by
  induction children with
  | nil =>
    intro st subs sa st2 subs2 h
    simp only [addChildren, Except.ok.injEq, Prod.mk.injEq] at h
    obtain ⟨h1, h2⟩ := h
    subst h1; subst h2
    simp [childComps]
  | cons ch rest ih =>
    intro st subs sa st2 subs2 h
    simp only [addChildren] at h
    cases hl : lookupSub subs ch.name with
    | none => rw [hl] at h; exact absurd h (by simp)
    | some p =>
      obtain ⟨chLab, chLoc⟩ := p
      rw [hl] at h
      obtain ⟨hsubs, hst⟩ := ih _ _ _ _ _ h
      refine ⟨hsubs, ?_⟩
      rw [hst]
      simp [DocState.addComponent, childComps, hl]

theorem runEntry_ok_spec (b : Bool) (st : DocState) (subs : SubMap) (e : TravEntry)
    (st1 : DocState) (subs1 : SubMap)
    (h : runEntry b st subs e = Except.ok (st1, subs1)) :
    subs1 = (e.k, (st.nextId + 1, e.v.loc)) :: subs ∧
    st1 = { st with
      nextId := st.nextId + 2,
      names := (st.nextId + 1, e.k) :: (st.nextId, e.k ++ "_part") :: st.names,
      shapesSet := (st.nextId, Compound.makeCompound e.v.shapes) :: st.shapesSet,
      colors := colorRec b st.nextId e ++ st.colors,
      components := childComps (st.nextId + 1) ((e.k, (st.nextId + 1, e.v.loc)) :: subs)
          e.v.children ++ [(st.nextId + 1, st.nextId, TopLoc_Location.identity)]
          ++ st.components } := by
  cases b with
  | true =>
    cases hcw : colorWalk e.v.color e.anc with
    | none =>
      simp only [runEntry, DocState.newShape, DocState.setShape, DocState.addComponent,
        setName, setColor, hcw, if_true] at h
      obtain ⟨hsubs, hst⟩ := addChildren_ok_spec _ _ _ _ _ _ h
      refine ⟨hsubs, ?_⟩
      rw [hst]
      simp [colorRec, hcw]
    | some c =>
      simp only [runEntry, DocState.newShape, DocState.setShape, DocState.addComponent,
        setName, setColor, hcw, if_true] at h
      obtain ⟨hsubs, hst⟩ := addChildren_ok_spec _ _ _ _ _ _ h
      refine ⟨hsubs, ?_⟩
      rw [hst]
      simp [colorRec, hcw]
  | false =>
    cases hc : e.v.color with
    | none =>
      simp only [runEntry, DocState.newShape, DocState.setShape, DocState.addComponent,
        setName, setColor, hc, Bool.false_eq_true, if_false] at h
      obtain ⟨hsubs, hst⟩ := addChildren_ok_spec _ _ _ _ _ _ h
      refine ⟨hsubs, ?_⟩
      rw [hst]
      simp [colorRec, hc]
    | some c =>
      simp only [runEntry, DocState.newShape, DocState.setShape, DocState.addComponent,
        setName, setColor, hc, Bool.false_eq_true, if_false] at h
      obtain ⟨hsubs, hst⟩ := addChildren_ok_spec _ _ _ _ _ _ h
      refine ⟨hsubs, ?_⟩
      rw [hst]
      simp [colorRec, hc]

theorem runEntries_ok_spec (b : Bool) (es : List TravEntry) :
    ∀ (st : DocState) (subs : SubMap) (st' : DocState) (subs' : SubMap),
      runEntries b st subs es = Except.ok (st', subs') →
      subs' = subsLog st.nextId es ++ subs ∧
      st' = { st with
        nextId := st.nextId + 2 * es.length,
        names := namesLog st.nextId es ++ st.names,
        shapesSet := shapesLog st.nextId es ++ st.shapesSet,
        colors := colorsLog b st.nextId es ++ st.colors,
        components := compsLog st.nextId subs es ++ st.components } := by
  induction es with
  | nil =>
    intro st subs st' subs' h
    simp only [runEntries, Except.ok.injEq, Prod.mk.injEq] at h
    obtain ⟨h1, h2⟩ := h
    subst h1; subst h2
    simp [subsLog, namesLog, shapesLog, colorsLog, compsLog]
  | cons e rest ih =>
    intro st subs st' subs' h
    simp only [runEntries] at h
    cases hE : runEntry b st subs e with
    | error err => rw [hE] at h; exact absurd h (by simp)
    | ok acc =>
      obtain ⟨st1, subs1⟩ := acc
      rw [hE] at h
      obtain ⟨hsubs1, hst1⟩ := runEntry_ok_spec b st subs e st1 subs1 hE
      obtain ⟨hsubs', hst'⟩ := ih st1 subs1 st' subs' h
      subst hsubs1; subst hst1
      have hn : st.nextId + 2 + 2 * rest.length = st.nextId + 2 * (e :: rest).length := by
        simp [List.length_cons]; ring
      constructor
      · rw [hsubs']
        simp [subsLog, List.append_assoc]
      · rw [hst']
        simp only [subsLog, namesLog, shapesLog, colorsLog, compsLog, List.append_assoc,
          List.cons_append, List.nil_append, List.singleton_append, hn]

theorem toCAF_ok_spec (assy : Assembly) (b : Bool) (top : Nat) (doc : DocState)
    (h : toCAF assy b = Except.ok (top, doc)) :
    top = 0 ∧
    ∃ rootLab rootLoc,
      lookupSub (subsLog 1 assy.traverse) assy.name = some (rootLab, rootLoc) ∧
      doc = { format := "XmlOcaf", autoNaming := false,
              nextId := 1 + 2 * assy.traverse.length,
              names := namesLog 1 assy.traverse ++ [(0, "CQ assembly")],
              shapesSet := shapesLog 1 assy.traverse,
              colors := colorsLog b 1 assy.traverse,
              components := (0, rootLab, assy.loc.wrapped) :: compsLog 1 [] assy.traverse,
              updated := true } := by
  simp only [toCAF, DocState.newShape, setName] at h
  cases hR : runEntries b
      { format := "XmlOcaf", autoNaming := false, nextId := 0 + 1,
        names := [(0, "CQ assembly")], shapesSet := [], colors := [], components := [],
        updated := false } [] assy.traverse with
  | error err => rw [hR] at h; exact absurd h (by simp)
  | ok acc =>
    obtain ⟨doc1, subassys⟩ := acc
    rw [hR] at h
    dsimp only at h
    obtain ⟨hsubs, hdoc1⟩ := runEntries_ok_spec b assy.traverse _ _ _ _ hR
    cases hL : lookupSub subassys assy.name with
    | none => rw [hL] at h; exact absurd h (by simp)
    | some p =>
      obtain ⟨rootLab, rootLoc⟩ := p
      rw [hL] at h
      simp only [DocState.addComponent, Except.ok.injEq, Prod.mk.injEq] at h
      obtain ⟨htop, hdoc⟩ := h
      refine ⟨htop.symm, rootLab, rootLoc, ?_, ?_⟩
      · rw [← hL, hsubs]
        simp
      · rw [← hdoc, hdoc1]
        simp [hsubs]

theorem colorWalk_none_eq_nearest (anc : List (Option Color)) :
    colorWalk none anc = nearestAncestorColor anc := by
  induction anc with
  | nil => rfl
  | cons p rest ih =>
    cases p with
    | none => simpa [colorWalk, nearestAncestorColor] using ih
    | some c => simp [colorWalk, nearestAncestorColor]

theorem colorsLog_mem (b : Bool) : ∀ (es : List TravEntry) (base l : Nat) (q : Quantity_ColorRGBA),
    ((l, q) ∈ colorsLog b base es ↔
      ∃ i e, es.get? i = some e ∧ (l, q) ∈ colorRec b (base + 2 * i) e) := by
  intro es
  induction es with
  | nil => intro base l q; simp [colorsLog]
  | cons e rest ih =>
    intro base l q
    simp only [colorsLog, List.mem_append]
    constructor
    · rintro (hmem | hmem)
      · obtain ⟨i, e', hget, hrec⟩ := (ih (base + 2) l q).mp hmem
        refine ⟨i + 1, e', by simpa using hget, ?_⟩
        have : base + 2 * (i + 1) = base + 2 + 2 * i := by ring
        rw [this]
        exact hrec
      · exact ⟨0, e, by simp, by simpa using hmem⟩
    · rintro ⟨i, e', hget, hrec⟩
      cases i with
      | zero =>
        right
        simp only [List.get?_cons_zero, Option.some.injEq] at hget
        subst hget
        simpa using hrec
      | succ i' =>
        left
        refine (ih (base + 2) l q).mpr ⟨i', e', by simpa using hget, ?_⟩
        have : base + 2 * (i' + 1) = base + 2 + 2 * i' := by ring
        rw [this] at hrec
        exact hrec

theorem colorRec_true_label (base : Nat) (e : TravEntry) (l : Nat) (q : Quantity_ColorRGBA)
    (h : (l, q) ∈ colorRec true base e) :
    l = base ∧ colorWalk e.v.color e.anc = some ⟨q⟩ := by
  simp only [colorRec, if_true] at h
  cases hcw : colorWalk e.v.color e.anc with
  | none => rw [hcw] at h; simp at h
  | some c =>
    rw [hcw] at h
    simp only [List.mem_singleton, Prod.mk.injEq] at h
    obtain ⟨h1, h2⟩ := h
    subst h2
    exact ⟨h1, rfl⟩

theorem colorRec_false_label (base : Nat) (e : TravEntry) (l : Nat) (q : Quantity_ColorRGBA)
    (h : (l, q) ∈ colorRec false base e) :
    l = base + 1 ∧ e.v.color = some ⟨q⟩ := by
  simp only [colorRec, Bool.false_eq_true, if_false] at h
  cases hc : e.v.color with
  | none => rw [hc] at h; simp at h
  | some c =>
    rw [hc] at h
    simp only [List.mem_singleton, Prod.mk.injEq] at h
    obtain ⟨h1, h2⟩ := h
    subst h2
    exact ⟨h1, rfl⟩

theorem namesLog_length : ∀ (es : List TravEntry) (base : Nat),
    (namesLog base es).length = 2 * es.length := by
  intro es
  induction es with
  | nil => intro base; simp [namesLog]
  | cons e rest ih =>
    intro base
    simp [namesLog, ih (base + 2)]
    ring

theorem shapesLog_length : ∀ (es : List TravEntry) (base : Nat),
    (shapesLog base es).length = es.length := by
  intro es
  induction es with
  | nil => intro base; simp [shapesLog]
  | cons e rest ih =>
    intro base
    simp [shapesLog, ih (base + 2)]

theorem namesLog_mem_part : ∀ (es : List TravEntry) (base i : Nat) (e : TravEntry),
    es.get? i = some e → (base + 2 * i, e.k ++ "_part") ∈ namesLog base es := by
  intro es
  induction es with
  | nil => intro base i e hget; simp at hget
  | cons e0 rest ih =>
    intro base i e hget
    cases i with
    | zero =>
      simp only [List.get?_cons_zero, Option.some.injEq] at hget
      subst hget
      simp [namesLog]
    | succ i' =>
      simp only [List.get?_cons_succ] at hget
      have := ih (base + 2) i' e hget
      have harith : base + 2 + 2 * i' = base + 2 * (i' + 1) := by ring
      rw [harith] at this
      simp [namesLog, this]

theorem namesLog_mem_inst : ∀ (es : List TravEntry) (base i : Nat) (e : TravEntry),
    es.get? i = some e → (base + 2 * i + 1, e.k) ∈ namesLog base es := by
  intro es
  induction es with
  | nil => intro base i e hget; simp at hget
  | cons e0 rest ih =>
    intro base i e hget
    cases i with
    | zero =>
      simp only [List.get?_cons_zero, Option.some.injEq] at hget
      subst hget
      simp [namesLog]
    | succ i' =>
      simp only [List.get?_cons_succ] at hget
      have := ih (base + 2) i' e hget
      have harith : base + 2 + 2 * i' = base + 2 * (i' + 1) := by ring
      rw [harith] at this
      simp [namesLog, this]

theorem shapesLog_mem : ∀ (es : List TravEntry) (base i : Nat) (e : TravEntry),
    es.get? i = some e →
    (base + 2 * i, Compound.makeCompound e.v.shapes) ∈ shapesLog base es := by
  intro es
  induction es with
  | nil => intro base i e hget; simp at hget
  | cons e0 rest ih =>
    intro base i e hget
    cases i with
    | zero =>
      simp only [List.get?_cons_zero, Option.some.injEq] at hget
      subst hget
      simp [shapesLog]
    | succ i' =>
      simp only [List.get?_cons_succ] at hget
      have := ih (base + 2) i' e hget
      have harith : base + 2 + 2 * i' = base + 2 * (i' + 1) := by ring
      rw [harith] at this
      simp [shapesLog, this]

theorem subsLog_mem_of : ∀ (es : List TravEntry) (base i : Nat) (e : TravEntry),
    es.get? i = some e → (e.k, (base + 2 * i + 1, e.v.loc)) ∈ subsLog base es := by
  intro es
  induction es with
  | nil => intro base i e hget; simp at hget
  | cons e0 rest ih =>
    intro base i e hget
    cases i with
    | zero =>
      simp only [List.get?_cons_zero, Option.some.injEq] at hget
      subst hget
      simp [subsLog]
    | succ i' =>
      simp only [List.get?_cons_succ] at hget
      have := ih (base + 2) i' e hget
      have harith : base + 2 + 2 * i' = base + 2 * (i' + 1) := by ring
      rw [harith] at this
      simp [subsLog, this]

theorem subsLog_mem_fwd : ∀ (es : List TravEntry) (base : Nat) (k : String) (lab : Nat)
    (lo : Location), (k, (lab, lo)) ∈ subsLog base es →
    ∃ i e, es.get? i = some e ∧ k = e.k ∧ lab = base + 2 * i + 1 ∧ lo = e.v.loc := by
  intro es
  induction es with
  | nil => intro base k lab lo h; simp [subsLog] at h
  | cons e0 rest ih =>
    intro base k lab lo h
    simp only [subsLog, List.mem_append, List.mem_singleton, Prod.mk.injEq] at h
    rcases h with hmem | ⟨hk, hlab, hlo⟩
    · obtain ⟨i, e, hget, hk, hlab, hlo⟩ := ih (base + 2) k lab lo hmem
      refine ⟨i + 1, e, by simpa using hget, hk, by omega, hlo⟩
    · exact ⟨0, e0, by simp, hk, by omega, hlo⟩

theorem subsLog_keys : ∀ (es : List TravEntry) (base : Nat),
    (subsLog base es).map Prod.fst = (es.map TravEntry.k).reverse := by
  intro es
  induction es with
  | nil => intro base; simp [subsLog]
  | cons e rest ih =>
    intro base
    simp [subsLog, ih (base + 2)]

theorem lookupSub_mem : ∀ (subs : SubMap) (key : String) (v : Nat × Location),
    lookupSub subs key = some v → (key, v) ∈ subs := by
  intro subs
  induction subs with
  | nil => intro key v h; simp [lookupSub] at h
  | cons p rest ih =>
    intro key v h
    obtain ⟨k0, v0⟩ := p
    simp only [lookupSub] at h
    by_cases hk : key = k0
    · rw [if_pos hk] at h
      simp only [Option.some.injEq] at h
      subst hk; subst h
      exact List.mem_cons_self _ _
    · rw [if_neg hk] at h
      exact List.mem_cons_of_mem _ (ih key v h)

theorem lookupSub_isSome_of_key_mem : ∀ (subs : SubMap) (key : String),
    key ∈ subs.map Prod.fst → ∃ v, lookupSub subs key = some v := by
  intro subs
  induction subs with
  | nil => intro key h; simp at h
  | cons p rest ih =>
    intro key h
    obtain ⟨k0, v0⟩ := p
    by_cases hk : key = k0
    · exact ⟨v0, by simp [lookupSub, hk]⟩
    · simp only [List.map_cons, List.mem_cons] at h
      rcases h with h | h
      · exact absurd h hk
      · obtain ⟨v, hv⟩ := ih key h
        exact ⟨v, by simp [lookupSub, hk, hv]⟩

theorem lookupSub_eq_of_mem_nodup : ∀ (subs : SubMap) (key : String) (v : Nat × Location),
    (subs.map Prod.fst).Nodup → (key, v) ∈ subs → lookupSub subs key = some v := by
  intro subs
  induction subs with
  | nil => intro key v _ h; simp at h
  | cons p rest ih =>
    intro key v hnd h
    obtain ⟨k0, v0⟩ := p
    simp only [List.map_cons, List.nodup_cons] at hnd
    rcases List.mem_cons.mp h with heq | hmem
    · cases heq
      simp [lookupSub]
    · have hk : key ≠ k0 := by
        intro hkey
        subst hkey
        exact hnd.1 (List.mem_map.mpr ⟨(key, v), hmem, rfl⟩)
      simp only [lookupSub, if_neg hk]
      exact ih key v hnd.2 hmem

theorem childComps_mem_fwd : ∀ (l : List Assembly) (sa : Nat) (subs : SubMap)
    (p c : Nat) (t : TopLoc_Location), (p, c, t) ∈ childComps sa subs l →
    p = sa ∧ ∃ ch ∈ l, ∃ lo, lookupSub subs ch.name = some (c, lo) ∧ t = lo.wrapped := by
  intro l
  induction l with
  | nil => intro sa subs p c t h; simp [childComps] at h
  | cons ch rest ih =>
    intro sa subs p c t h
    simp only [childComps] at h
    cases hl : lookupSub subs ch.name with
    | none =>
      rw [hl] at h
      obtain ⟨hp, ch', hch', lo, hlo, ht⟩ := ih sa subs p c t h
      exact ⟨hp, ch', List.mem_cons_of_mem _ hch', lo, hlo, ht⟩
    | some q =>
      obtain ⟨chLab, chLoc⟩ := q
      rw [hl] at h
      rcases List.mem_append.mp h with hmem | hmem
      · obtain ⟨hp, ch', hch', lo, hlo, ht⟩ := ih sa subs p c t hmem
        exact ⟨hp, ch', List.mem_cons_of_mem _ hch', lo, hlo, ht⟩
      · simp only [List.mem_singleton, Prod.mk.injEq] at hmem
        obtain ⟨hp, hc, ht⟩ := hmem
        exact ⟨hp, ch, List.mem_cons_self _ _, chLoc, by rw [hl, hc], ht⟩

theorem childComps_mem_of : ∀ (l : List Assembly) (sa : Nat) (subs : SubMap)
    (ch : Assembly), ch ∈ l → ∀ (c : Nat) (lo : Location),
    lookupSub subs ch.name = some (c, lo) →
    (sa, c, lo.wrapped) ∈ childComps sa subs l := by
  intro l
  induction l with
  | nil => intro sa subs ch hch; simp at hch
  | cons ch0 rest ih =>
    intro sa subs ch hch c lo hlo
    rcases List.mem_cons.mp hch with heq | hmem
    · subst heq
      simp only [childComps, hlo]
      exact List.mem_append.mpr (Or.inr (List.mem_singleton.mpr rfl))
    · have := ih sa subs ch hmem c lo hlo
      simp only [childComps]
      cases hl : lookupSub subs ch0.name with
      | none => exact this
      | some q =>
        obtain ⟨chLab, chLoc⟩ := q
        exact List.mem_append.mpr (Or.inl this)

theorem subsLog_take_cons (e : TravEntry) (rest : List TravEntry) (base m : Nat)
    (subs : SubMap) :
    subsLog base ((e :: rest).take (m + 1)) ++ subs =
      subsLog (base + 2) (rest.take m) ++ ((e.k, (base + 1, e.v.loc)) :: subs) := by
  simp [List.take_succ_cons, subsLog, List.append_assoc]

theorem compsLog_mem_fwd : ∀ (es : List TravEntry) (base : Nat) (subs : SubMap)
    (p c : Nat) (t : TopLoc_Location), (p, c, t) ∈ compsLog base subs es →
    ∃ i e, es.get? i = some e ∧ p = base + 2 * i + 1 ∧
      ((c = base + 2 * i ∧ t = TopLoc_Location.identity) ∨
       ∃ ch ∈ e.v.children, ∃ lo,
         lookupSub (subsLog base (es.take (i + 1)) ++ subs) ch.name = some (c, lo) ∧
         t = lo.wrapped) := by
  intro es
  induction es with
  | nil => intro base subs p c t h; simp [compsLog] at h
  | cons e0 rest ih =>
    intro base subs p c t h
    simp only [compsLog, List.append_assoc, List.mem_append, List.mem_singleton,
      Prod.mk.injEq] at h
    rcases h with hmem | hmem | ⟨hp, hc, ht⟩
    · obtain ⟨i, e, hget, hp, hrest⟩ := ih (base + 2) _ p c t hmem
      refine ⟨i + 1, e, by simpa using hget, by rw [hp]; ring, ?_⟩
      rcases hrest with ⟨hc, ht⟩ | ⟨ch, hch, lo, hlo, ht⟩
      · exact Or.inl ⟨by rw [hc]; ring, ht⟩
      · refine Or.inr ⟨ch, hch, lo, ?_, ht⟩
        rw [subsLog_take_cons]
        exact hlo
    · obtain ⟨hp, ch, hch, lo, hlo, ht⟩ := childComps_mem_fwd _ _ _ p c t hmem
      refine ⟨0, e0, by simp, by omega, Or.inr ⟨ch, hch, lo, ?_, ht⟩⟩
      rw [subsLog_take_cons]
      simpa using hlo
    · exact ⟨0, e0, by simp, by omega, Or.inl ⟨by omega, ht⟩⟩

theorem compsLog_mem_child : ∀ (es : List TravEntry) (base : Nat) (subs : SubMap)
    (i : Nat) (e : TravEntry), es.get? i = some e →
    ∀ ch ∈ e.v.children, ∀ (c : Nat) (lo : Location),
      lookupSub (subsLog base (es.take (i + 1)) ++ subs) ch.name = some (c, lo) →
      (base + 2 * i + 1, c, lo.wrapped) ∈ compsLog base subs es := by
  intro es
  induction es with
  | nil => intro base subs i e hget; simp at hget
  | cons e0 rest ih =>
    intro base subs i e hget ch hch c lo hlo
    cases i with
    | zero =>
      simp only [List.get?_cons_zero, Option.some.injEq] at hget
      subst hget
      rw [subsLog_take_cons] at hlo
      simp only [List.take_zero, subsLog, List.nil_append] at hlo
      simp only [compsLog, List.append_assoc, List.mem_append]
      exact Or.inr (Or.inl (childComps_mem_of _ _ _ ch hch c lo hlo))
    | succ i' =>
      simp only [List.get?_cons_succ] at hget
      rw [subsLog_take_cons] at hlo
      have := ih (base + 2) _ i' e hget ch hch c lo hlo
      have harith : base + 2 + 2 * i' + 1 = base + 2 * (i' + 1) + 1 := by ring
      rw [harith] at this
      simp only [compsLog, List.append_assoc, List.mem_append]
      exact Or.inl this

/-- C1: with `coloredSTEP=True`, a traversal node with no own color but
with a colored ancestor (via the parent chain) gets the nearest such
ancestor's color set on its part label, and no color at all is set on
its assembly (instance) label. -/
theorem toCAF_true_inherits_nearest_ancestor_color
    (assy : Assembly) (top : Nat) (doc : DocState)
    (h : toCAF assy true = Except.ok (top, doc))
    (i : Nat) (e : TravEntry) (hget : assy.traverse.get? i = some e)
    (hnone : e.v.color = none) (c : Color)
    (hc : nearestAncestorColor e.anc = some c) :
    (partLabel i, c.wrapped) ∈ doc.colors ∧
    ∀ q : Quantity_ColorRGBA, (instLabel i, q) ∉ doc.colors := by
  obtain ⟨htop, rootLab, rootLoc, hlook, hdoc⟩ := toCAF_ok_spec assy true top doc h
  subst hdoc
  constructor
  · show (partLabel i, c.wrapped) ∈ colorsLog true 1 assy.traverse
    refine (colorsLog_mem true assy.traverse 1 _ _).mpr ⟨i, e, hget, ?_⟩
    have hwalk : colorWalk e.v.color e.anc = some c := by
      rw [hnone, colorWalk_none_eq_nearest, hc]
    simp [colorRec, hwalk, partLabel]
  · intro q hq
    have hmem : (instLabel i, q) ∈ colorsLog true 1 assy.traverse := hq
    obtain ⟨j, e', hget', hrec⟩ := (colorsLog_mem true assy.traverse 1 _ _).mp hmem
    obtain ⟨hl, _⟩ := colorRec_true_label (1 + 2 * j) e' _ _ hrec
    simp only [instLabel] at hl
    omega

/-- C2: with `coloredSTEP=False`, only the node's own color is
consulted: a node with no color gets no color on either of its labels,
even when an ancestor is colored, and a node with an own color gets it
set on its assembly (instance) label, never on its part label. -/
theorem toCAF_false_uses_own_color_only
    (assy : Assembly) (top : Nat) (doc : DocState)
    (h : toCAF assy false = Except.ok (top, doc))
    (i : Nat) (e : TravEntry) (hget : assy.traverse.get? i = some e) :
    (e.v.color = none →
      (∀ q : Quantity_ColorRGBA, (partLabel i, q) ∉ doc.colors) ∧
      (∀ q : Quantity_ColorRGBA, (instLabel i, q) ∉ doc.colors)) ∧
    (∀ col : Color, e.v.color = some col →
      (instLabel i, col.wrapped) ∈ doc.colors ∧
      ∀ q : Quantity_ColorRGBA, (partLabel i, q) ∉ doc.colors) := by
  obtain ⟨htop, rootLab, rootLoc, hlook, hdoc⟩ := toCAF_ok_spec assy false top doc h
  subst hdoc
  have habsent : ∀ q : Quantity_ColorRGBA, (partLabel i, q) ∉ colorsLog false 1 assy.traverse := by
    intro q hq
    obtain ⟨j, e', hget', hrec⟩ := (colorsLog_mem false assy.traverse 1 _ _).mp hq
    obtain ⟨hl, _⟩ := colorRec_false_label (1 + 2 * j) e' _ _ hrec
    simp only [partLabel] at hl
    omega
  constructor
  · intro hnone
    refine ⟨habsent, ?_⟩
    intro q hq
    have hmem : (instLabel i, q) ∈ colorsLog false 1 assy.traverse := hq
    obtain ⟨j, e', hget', hrec⟩ := (colorsLog_mem false assy.traverse 1 _ _).mp hmem
    obtain ⟨hl, hcol⟩ := colorRec_false_label (1 + 2 * j) e' _ _ hrec
    simp only [instLabel] at hl
    have hij : i = j := by omega
    subst hij
    rw [hget] at hget'
    simp only [Option.some.injEq] at hget'
    subst hget'
    rw [hnone] at hcol
    exact Option.noConfusion hcol
  · intro col hcol
    constructor
    · show (instLabel i, col.wrapped) ∈ colorsLog false 1 assy.traverse
      refine (colorsLog_mem false assy.traverse 1 _ _).mpr ⟨i, e, hget, ?_⟩
      simp [colorRec, hcol, instLabel]
      ring
    · exact habsent

/-- C8: a run of `toCAF` over a traversal of N entries creates exactly
2N+1 labels and 2N+1 name records: for the i-th entry a part label
named `k ++ "_part"` holding the compound of the node's own shapes and
an assembly label named `k`, plus the single root label named
"CQ assembly". -/
theorem toCAF_label_counts
    (assy : Assembly) (b : Bool) (top : Nat) (doc : DocState)
    (h : toCAF assy b = Except.ok (top, doc))
    (i : Nat) (e : TravEntry) (hget : assy.traverse.get? i = some e) :
    doc.nextId = 2 * assy.traverse.length + 1 ∧
    doc.names.length = 2 * assy.traverse.length + 1 ∧
    doc.shapesSet.length = assy.traverse.length ∧
    (0, "CQ assembly") ∈ doc.names ∧
    (partLabel i, e.k ++ "_part") ∈ doc.names ∧
    (instLabel i, e.k) ∈ doc.names ∧
    (partLabel i, Compound.makeCompound e.v.shapes) ∈ doc.shapesSet := by
  obtain ⟨htop, rootLab, rootLoc, hlook, hdoc⟩ := toCAF_ok_spec assy b top doc h
  subst hdoc
  refine ⟨by simp; omega, ?_, ?_, ?_, ?_, ?_, ?_⟩
  · show (namesLog 1 assy.traverse ++ [(0, "CQ assembly")]).length = _
    simp only [List.length_append, namesLog_length, List.length_singleton]
  · exact shapesLog_length assy.traverse 1
  · exact List.mem_append.mpr (Or.inr (List.mem_singleton.mpr rfl))
  · exact List.mem_append.mpr (Or.inl (namesLog_mem_part assy.traverse 1 i e hget))
  · have hmem := namesLog_mem_inst assy.traverse 1 i e hget
    have harith : 1 + 2 * i + 1 = instLabel i := by simp [instLabel]; omega
    rw [harith] at hmem
    exact List.mem_append.mpr (Or.inl hmem)
  · exact shapesLog_mem assy.traverse 1 i e hget

theorem addChildren_ok_lookup : ∀ (children : List Assembly) (st : DocState)
    (subs : SubMap) (sa : Nat) (st2 : DocState) (subs2 : SubMap),
    addChildren st subs sa children = Except.ok (st2, subs2) →
    ∀ ch ∈ children, lookupSub subs ch.name ≠ none := by
  intro children
  induction children with
  | nil => intro st subs sa st2 subs2 _ ch hch; simp at hch
  | cons ch0 rest ih =>
    intro st subs sa st2 subs2 h ch hch
    simp only [addChildren] at h
    cases hl : lookupSub subs ch0.name with
    | none => rw [hl] at h; exact absurd h (by simp)
    | some p =>
      obtain ⟨chLab, chLoc⟩ := p
      rw [hl] at h
      rcases List.mem_cons.mp hch with heq | hmem
      · subst heq; rw [hl]; simp
      · exact ih _ _ _ _ _ h ch hmem

theorem runEntry_error_of_missing (b : Bool) (st : DocState) (subs : SubMap) (e : TravEntry)
    (hmiss : ∃ ch ∈ e.v.children,
      lookupSub ((e.k, (st.nextId + 1, e.v.loc)) :: subs) ch.name = none) :
    ∃ err, runEntry b st subs e = Except.error err := by
  obtain ⟨ch, hch, hl⟩ := hmiss
  cases hE : runEntry b st subs e with
  | error err => exact ⟨err, rfl⟩
  | ok acc =>
    exfalso
    obtain ⟨st1, subs1⟩ := acc
    simp only [runEntry, DocState.newShape, DocState.setShape, DocState.addComponent,
      setName, setColor] at hE
    split at hE <;> split at hE <;>
      exact absurd hl (addChildren_ok_lookup _ _ _ _ _ _ hE ch hch)

/-- C9: if, while an entry of the traversal is processed, one of the
node's children is not recorded in the `subassys` map (the traversal
invariant that children are recorded before being referenced is
broken), the loop fails immediately with an error — a Python `KeyError`
from the dict access — instead of silently skipping the child. -/
theorem runEntries_missing_child_fails (b : Bool) (st : DocState) (subs : SubMap)
    (e : TravEntry) (rest : List TravEntry)
    (hmiss : ∃ ch ∈ e.v.children, ch.name ≠ e.k ∧ lookupSub subs ch.name = none) :
    ∃ err, runEntries b st subs (e :: rest) = Except.error err := by
  obtain ⟨ch, hch, hne, hnone⟩ := hmiss
  have hm1 : lookupSub ((e.k, (st.nextId + 1, e.v.loc)) :: subs) ch.name = none := by
    simp [lookupSub, hne, hnone]
  obtain ⟨err, herr⟩ := runEntry_error_of_missing b st subs e ⟨ch, hch, hm1⟩
  exact ⟨err, by simp [runEntries, herr]⟩

/-- The traversal invariant: every child of a node yielded at position
`i` was itself yielded, with its own name and node, at some position
before `i`. -/
def childrenRecorded (es : List TravEntry) : Prop :=
  ∀ i e, es.get? i = some e → ∀ ch ∈ e.v.children,
    ∃ j e', j < i ∧ es.get? j = some e' ∧ e'.k = ch.name ∧ e'.v = ch

theorem childrenRecorded_append (l1 l2 : List TravEntry)
    (h1 : childrenRecorded l1) (h2 : childrenRecorded l2) :
    childrenRecorded (l1 ++ l2) := by
  intro i e hget ch hch
  by_cases hi : i < l1.length
  · rw [List.get?_append hi] at hget
    obtain ⟨j, e', hj, hget', hk, hv⟩ := h1 i e hget ch hch
    exact ⟨j, e', hj, by rw [List.get?_append (by omega)]; exact hget', hk, hv⟩
  · rw [List.get?_append_right (by omega)] at hget
    obtain ⟨j, e', hj, hget', hk, hv⟩ := h2 (i - l1.length) e hget ch hch
    refine ⟨j + l1.length, e', by omega, ?_, hk, hv⟩
    rw [List.get?_append_right (by omega)]
    simpa using hget'

mutual
theorem traverseFrom_recorded (a : Assembly) (anc : List (Option Color)) :
    childrenRecorded (Assembly.traverseFrom anc a) := by
  cases a with
  | node n lo c s ch =>
    intro i e hget ch' hch'
    rw [Assembly.traverseFrom] at hget
    by_cases hi : i < (Assembly.traverseListFrom (c :: anc) ch).length
    · rw [List.get?_append hi] at hget
      obtain ⟨j, e', hj, hget', hk, hv⟩ :=
        (traverseListFrom_recorded ch (c :: anc)).1 i e hget ch' hch'
      refine ⟨j, e', hj, ?_, hk, hv⟩
      rw [Assembly.traverseFrom, List.get?_append (by omega)]
      exact hget'
    · rw [List.get?_append_right (by omega)] at hget
      have hidx : i - (Assembly.traverseListFrom (c :: anc) ch).length = 0 := by
        rcases Nat.lt_or_ge (i - (Assembly.traverseListFrom (c :: anc) ch).length) 1 with hlt | hge
        · omega
        · exfalso
          rw [List.get?_eq_none.mpr (by simpa using hge)] at hget
          exact Option.noConfusion hget
      rw [hidx] at hget
      simp only [List.get?_cons_zero, Option.some.injEq] at hget
      subst hget
      have hmem := (traverseListFrom_recorded ch (c :: anc)).2 ch' hch'
      obtain ⟨j, hget'⟩ := List.mem_iff_get?.mp hmem
      have hj : j < (Assembly.traverseListFrom (c :: anc) ch).length := by
        by_contra hcon
        rw [List.get?_eq_none.mpr (by omega)] at hget'
        exact Option.noConfusion hget'
      refine ⟨j, ⟨ch'.name, ch', c :: anc⟩, by omega, ?_, rfl, rfl⟩
      rw [Assembly.traverseFrom, List.get?_append hj]
      exact hget'

theorem traverseListFrom_recorded (l : List Assembly) (anc : List (Option Color)) :
    childrenRecorded (Assembly.traverseListFrom anc l) ∧
    ∀ a ∈ l, (⟨a.name, a, anc⟩ : TravEntry) ∈ Assembly.traverseListFrom anc l := by
  cases l with
  | nil =>
    constructor
    · intro i e hget; rw [Assembly.traverseListFrom] at hget; simp at hget
    · intro a ha; simp at ha
  | cons a0 rest =>
    constructor
    · rw [Assembly.traverseListFrom]
      exact childrenRecorded_append _ _ (traverseFrom_recorded a0 anc)
        (traverseListFrom_recorded rest anc).1
    · intro a ha
      rw [Assembly.traverseListFrom]
      rcases List.mem_cons.mp ha with heq | hmem
      · subst heq
        refine List.mem_append.mpr (Or.inl ?_)
        cases a with
        | node n lo c s ch =>
          rw [Assembly.traverseFrom]
          exact List.mem_append.mpr (Or.inr (List.mem_singleton.mpr rfl))
      · exact List.mem_append.mpr
          (Or.inr ((traverseListFrom_recorded rest anc).2 a hmem))
end

theorem traverse_recorded (a : Assembly) : childrenRecorded a.traverse :=
  traverseFrom_recorded a []

theorem traverse_last (a : Assembly) :
    ∃ pre, a.traverse = pre ++ [⟨a.name, a, []⟩] := by
  cases a with
  | node n lo c s ch =>
    exact ⟨Assembly.traverseListFrom (c :: []) ch, rfl⟩

theorem subsLog_append (l1 l2 : List TravEntry) : ∀ base : Nat,
    subsLog base (l1 ++ l2) = subsLog (base + 2 * l1.length) l2 ++ subsLog base l1 := by
  induction l1 with
  | nil => intro base; simp [subsLog]
  | cons e rest ih =>
    intro base
    have harith : base + 2 + 2 * rest.length = base + 2 * (rest.length + 1) := by ring
    show subsLog (base + 2) (rest ++ l2) ++ [(e.k, (base + 1, e.v.loc))] =
      subsLog (base + 2 * (rest.length + 1)) l2 ++ subsLog base (e :: rest)
    rw [ih (base + 2), harith, List.append_assoc]
    rfl

theorem lookupSub_subsLog_root (a : Assembly) :
    lookupSub (subsLog 1 a.traverse) a.name = some (2 * a.traverse.length, a.loc) := by
  obtain ⟨pre, hpre⟩ := traverse_last a
  rw [hpre, subsLog_append]
  show (if a.name = a.name then some (1 + 2 * pre.length + 1, a.loc)
      else lookupSub (subsLog 1 pre) a.name) =
    some (2 * (pre ++ [(⟨a.name, a, []⟩ : TravEntry)]).length, a.loc)
  rw [if_pos rfl]
  have : 1 + 2 * pre.length + 1 = 2 * (pre ++ [(⟨a.name, a, []⟩ : TravEntry)]).length := by
    simp [List.length_append]
    ring
  rw [this]

/-- C7: every child of a processed node is wired into that node's
assembly label as a component carrying the child's own recorded
placement — the location of the child's earlier traversal entry, which
is the child's own `loc` — and that is the only placement ever attached
between those two labels; the final top-level component mounts the root
node's assembly label at the root node's own placement. -/
theorem toCAF_child_placement
    (assy : Assembly) (b : Bool) (top : Nat) (doc : DocState)
    (hnd : (assy.traverse.map TravEntry.k).Nodup)
    (h : toCAF assy b = Except.ok (top, doc))
    (i : Nat) (e : TravEntry) (hget : assy.traverse.get? i = some e)
    (ch : Assembly) (hch : ch ∈ e.v.children) :
    (∃ j e', j < i ∧ assy.traverse.get? j = some e' ∧ e'.v = ch ∧
      (instLabel i, instLabel j, ch.loc.wrapped) ∈ doc.components ∧
      ∀ t : TopLoc_Location,
        (instLabel i, instLabel j, t) ∈ doc.components → t = ch.loc.wrapped) ∧
    (top, instLabel (assy.traverse.length - 1), assy.loc.wrapped) ∈ doc.components := by
  obtain ⟨htop, rootLab, rootLoc, hlook, hdoc⟩ := toCAF_ok_spec assy b top doc h
  subst hdoc
  subst htop
  have hroot := lookupSub_subsLog_root assy
  rw [hlook] at hroot
  simp only [Option.some.injEq, Prod.mk.injEq] at hroot
  obtain ⟨hrootLab, hrootLoc⟩ := hroot
  have hN : 1 ≤ assy.traverse.length := by
    obtain ⟨pre, hpre⟩ := traverse_last assy
    rw [hpre]
    simp
  obtain ⟨j, e', hj, hgetj, hk, hv⟩ := traverse_recorded assy i e hget ch hch
  have hgetj' : (assy.traverse.take (i + 1)).get? j = some e' := by
    rw [List.get?_take (by omega)]
    exact hgetj
  have hmemj := subsLog_mem_of (assy.traverse.take (i + 1)) 1 j e' hgetj'
  have hndsub : ((subsLog 1 (assy.traverse.take (i + 1))).map Prod.fst).Nodup := by
    rw [subsLog_keys]
    refine List.nodup_reverse.mpr ?_
    have hsub : List.Sublist ((assy.traverse.take (i + 1)).map TravEntry.k)
        (assy.traverse.map TravEntry.k) := (List.take_sublist _ _).map _
    exact hsub.nodup hnd
  have hlookup : lookupSub (subsLog 1 (assy.traverse.take (i + 1)) ++ ([] : SubMap))
      ch.name = some (1 + 2 * j + 1, e'.v.loc) := by
    rw [List.append_nil, ← hk]
    exact lookupSub_eq_of_mem_nodup _ _ _ hndsub hmemj
  have hcomp := compsLog_mem_child assy.traverse 1 [] i e hget ch hch
    (1 + 2 * j + 1) e'.v.loc hlookup
  have hloc : e'.v.loc = ch.loc := by rw [hv]
  refine ⟨⟨j, e', hj, hgetj, hv, ?_, ?_⟩, ?_⟩
  · have hpart : (1 + 2 * i + 1 : Nat) = instLabel i := by simp [instLabel]; omega
    have hpartj : (1 + 2 * j + 1 : Nat) = instLabel j := by simp [instLabel]; omega
    rw [hpart, hpartj, hloc] at hcomp
    exact List.mem_cons_of_mem _ hcomp
  · intro t hmem
    rcases List.mem_cons.mp hmem with heq | hmemtail
    · exfalso
      simp only [Prod.mk.injEq, instLabel] at heq
      omega
    · obtain ⟨i2, e2, hget2, hp2, hrest⟩ :=
        compsLog_mem_fwd assy.traverse 1 [] _ _ _ hmemtail
      have hii : i2 = i := by simp only [instLabel] at hp2; omega
      subst hii
      rw [hget] at hget2
      simp only [Option.some.injEq] at hget2
      subst hget2
      rcases hrest with ⟨hc2, ht2⟩ | ⟨ch2, hch2, lo2, hlo2, ht2⟩
      · exfalso
        simp only [instLabel] at hc2
        omega
      · obtain ⟨j2, e3, hget3, hk3, hlab3, hlo3⟩ := subsLog_mem_fwd _ _ _ _ _
          (lookupSub_mem _ _ _ (by rw [List.append_nil] at hlo2; exact hlo2))
      -- continue below
        have hjj : j2 = j := by simp only [instLabel] at hlab3; omega
        subst hjj
        rw [List.get?_take (by omega), hgetj] at hget3
        simp only [Option.some.injEq] at hget3
        subst hget3
        rw [ht2, hlo3, hloc]
  · have hlab : instLabel (assy.traverse.length - 1) = rootLab := by
      simp only [instLabel]
      omega
    rw [hlab]
    exact List.mem_cons_self _ _

/-- A concrete fully opaque red color. -/
def redColor : Color := ⟨⟨1, 0, 0, 1⟩⟩

/-- A fallback document used only to give `Except.toOption ... |>.getD`
a default when extracting concrete documents. -/
def emptyDoc : DocState :=
  { format := "", autoNaming := false, nextId := 0, names := [], shapesSet := [],
    colors := [], components := [], updated := false }

/-- Concrete assembly: a red root "R" with an uncolored child "A". -/
def exAssyC1 : Assembly :=
  Assembly.node "R" ⟨⟨5⟩⟩ (some redColor) [⟨0⟩]
    [Assembly.node "A" ⟨⟨7⟩⟩ none [⟨1⟩] []]

/-- The document produced by `toCAF exAssyC1 true`. -/
def exDocC1 : DocState := ((toCAF exAssyC1 true).toOption.getD (0, emptyDoc)).2

/-- Witness for C1: with `coloredSTEP=True`, the uncolored child "A" of
the red root inherits red on its part label and gets nothing on its
assembly label. -/
theorem toCAF_true_inherits_nearest_ancestor_color_witness :
    (partLabel 0, redColor.wrapped) ∈ exDocC1.colors ∧
    (instLabel 0, redColor.wrapped) ∉ exDocC1.colors := by
  have h := toCAF_true_inherits_nearest_ancestor_color exAssyC1 0 exDocC1 rfl 0
    ⟨"A", Assembly.node "A" ⟨⟨7⟩⟩ none [⟨1⟩] [], [some redColor]⟩ rfl rfl redColor rfl
  exact ⟨h.1, h.2 redColor.wrapped⟩

/-- Concrete assembly: a red root "R2" with an uncolored child "A2". -/
def exAssyC2 : Assembly :=
  Assembly.node "R2" ⟨⟨5⟩⟩ (some redColor) [⟨0⟩]
    [Assembly.node "A2" ⟨⟨7⟩⟩ none [⟨1⟩] []]

/-- The document produced by `toCAF exAssyC2 false`. -/
def exDocC2 : DocState := ((toCAF exAssyC2 false).toOption.getD (0, emptyDoc)).2

/-- Witness for C2: with `coloredSTEP=False`, the uncolored child "A2"
inherits nothing although its parent is red, and the red root's color
lands on the root's assembly label. -/
theorem toCAF_false_uses_own_color_only_witness :
    (partLabel 0, redColor.wrapped) ∉ exDocC2.colors ∧
    (instLabel 0, redColor.wrapped) ∉ exDocC2.colors ∧
    (instLabel 1, redColor.wrapped) ∈ exDocC2.colors := by
  have h0 := toCAF_false_uses_own_color_only exAssyC2 0 exDocC2 rfl 0
    ⟨"A2", Assembly.node "A2" ⟨⟨7⟩⟩ none [⟨1⟩] [], [some redColor]⟩ rfl
  have h1 := toCAF_false_uses_own_color_only exAssyC2 0 exDocC2 rfl 1
    ⟨"R2", exAssyC2, []⟩ rfl
  exact ⟨(h0.1 rfl).1 redColor.wrapped, (h0.1 rfl).2 redColor.wrapped,
    (h1.2 redColor rfl).1⟩

/-- Concrete child node for the placement witness. -/
def childC7 : Assembly := Assembly.node "A7" ⟨⟨9⟩⟩ none [⟨1⟩] []

/-- Concrete assembly: root "R7" with the single child "A7". -/
def exAssyC7 : Assembly := Assembly.node "R7" ⟨⟨8⟩⟩ none [⟨0⟩] [childC7]

/-- The document produced by `toCAF exAssyC7 false`. -/
def exDocC7 : DocState := ((toCAF exAssyC7 false).toOption.getD (0, emptyDoc)).2

/-- Witness for C7: the child "A7" is mounted under the root's assembly
label at the child's own placement, and the root is mounted under the
top label at the root's own placement. -/
theorem toCAF_child_placement_witness :
    (instLabel 1, instLabel 0, childC7.loc.wrapped) ∈ exDocC7.components ∧
    (0, instLabel 1, exAssyC7.loc.wrapped) ∈ exDocC7.components := by
  obtain ⟨⟨j, e', hj, hgetj, hv, hmem, huniq⟩, htop⟩ :=
    toCAF_child_placement exAssyC7 false 0 exDocC7 (by decide) rfl 1
      ⟨"R7", exAssyC7, []⟩ rfl childC7 (List.mem_cons_self _ _)
  have hj0 : j = 0 := by omega
  subst hj0
  exact ⟨hmem, htop⟩

/-- Concrete assembly: root "R8" with two own shapes and the child "A8"
with one shape. -/
def exAssyC8 : Assembly :=
  Assembly.node "R8" ⟨⟨3⟩⟩ none [⟨0⟩, ⟨1⟩]
    [Assembly.node "A8" ⟨⟨4⟩⟩ none [⟨2⟩] []]

/-- The document produced by `toCAF exAssyC8 false`. -/
def exDocC8 : DocState := ((toCAF exAssyC8 false).toOption.getD (0, emptyDoc)).2

/-- Witness for C8: the two-node assembly produces five labels and five
name records, among them the "CQ assembly" root label and the part and
assembly labels of the entry "A8" with its compound. -/
theorem toCAF_label_counts_witness :
    exDocC8.nextId = 5 ∧ exDocC8.names.length = 5 ∧ exDocC8.shapesSet.length = 2 ∧
    (0, "CQ assembly") ∈ exDocC8.names ∧
    (partLabel 0, "A8" ++ "_part") ∈ exDocC8.names ∧
    (instLabel 0, "A8") ∈ exDocC8.names ∧
    (partLabel 0, Compound.makeCompound [⟨2⟩]) ∈ exDocC8.shapesSet := by
  have h := toCAF_label_counts exAssyC8 false 0 exDocC8 rfl 0
    ⟨"A8", Assembly.node "A8" ⟨⟨4⟩⟩ none [⟨2⟩] [], [none]⟩ rfl
  exact ⟨h.1, h.2.1, h.2.2.1, h.2.2.2.1, h.2.2.2.2.1, h.2.2.2.2.2.1, h.2.2.2.2.2.2⟩

/-- A node that is referenced as a child but never recorded. -/
def exGhost : Assembly := Assembly.node "G9" ⟨⟨1⟩⟩ none [] []

/-- A traversal entry whose node has the unrecorded child `exGhost`. -/
def exBrokenEntry : TravEntry :=
  ⟨"X9", Assembly.node "X9" ⟨⟨2⟩⟩ none [] [exGhost], []⟩

/-- Witness for C9: processing an entry whose child "G9" is not in the
map fails with a key error instead of skipping the child. -/
theorem runEntries_missing_child_fails_witness :
    runEntries false emptyDoc [] [exBrokenEntry] =
      Except.error (CAFError.keyError "G9") ∧
    ∃ err, runEntries false emptyDoc [] [exBrokenEntry] = Except.error err :=
  ⟨rfl, runEntries_missing_child_fails false emptyDoc [] exBrokenEntry []
    ⟨exGhost, List.mem_cons_self _ _, by decide, rfl⟩⟩

end CQ
